import Mathlib

/-!
Shallow embedding of `src/timewarp.py` (Time Machine reservoir sampler).

Modelling conventions:
* A backup snapshot is represented by its numeric identifier
  `int(name.replace('-', '')) : ℕ` (the `YYYYMMDDHHMMSS` digits of the file
  name); this is the key Python sorts by, and it is monotone in creation time,
  so "chronologically latest" = numerically largest identifier.
* Python floats are modelled as real numbers `ℝ`; the free-space arithmetic of
  the dry-run loop (an integer plus repeated float additions) is modelled in
  `ℚ`, since only rational values ever arise there.
* `(today - strptime(str(id))).days` — calendar parsing plus floor-division of
  a time delta — is pure datetime plumbing; it is abstracted as a function
  parameter `ageDays : ℕ → ℤ` giving the whole-day age of each snapshot.
* `random()` draws are an input `us : ℕ → ℝ` (the value consumed at stream
  index `n` is `us n`), making the sampler a deterministic function of the
  drawn values, as required to state the claims.
* The `heapq` reservoir is modelled as a list with multiset semantics:
  `heappush` conses, `heapq.nsmallest(1, rsv)[0]` is the lexicographic minimum
  of the `(key, item)` pairs (`hMin`), `heapreplace` erases that minimum and
  conses the new pair, and `heapq.nlargest(k, rsv)` sorts descending and takes
  `k`.  Only the multiset of pairs is observable through these operations, so
  this is faithful to the heap.
* External effects are modelled by data: the deletion command `wrapper(...)`
  invocations are counted (`delCalls`), the audit log is the list of formatted
  lines appended (`logLine`), the free-space gauge `df` of live mode is an
  oracle `dfs : ℕ → ℤ` (value after r rounds), and `os.path.exists` is a
  predicate parameter.
-/

namespace Timewarp

/-- Line 46: `weight = lambda dt, dg: 1 + 1e2*1.618**(-dt) + 1e2*log(dg)`.
`dt` is the integer day age, so the Python float power is an integer power. -/
noncomputable def weight (dt : ℤ) (dg : ℝ) : ℝ :=
  1 + 1e2 * (1.618 : ℝ) ^ (-dt) + 1e2 * Real.log dg

/-- Lines 48-69, `gen_wts`: sort the backups chronologically, give every
backup except the latest the weight `weight t_delta g_delta` where `g_delta`
is the gap to the next backup in weeks clamped below at 1, and append the
latest backup with fixed weight `1e4`.  `ageDays b` models
`(today - strptime(str(b))).days`.  (On an empty input the source raises
`IndexError` at `bups[-1]`; the model is only used, as in the source, on
nonempty input.) -/
noncomputable def gen_wts (ageDays : ℕ → ℤ) (bups : List ℕ) : List (ℕ × ℝ) :=
  let sbups := bups.insertionSort (· ≤ ·)
  let latest_bup := sbups.getLastD 0
  let nbups := sbups.drop 1
  let data := (sbups.zip nbups).map (fun p =>
    let t_delta := ageDays p.1
    let nt_delta_t := ageDays p.2
    let g_delta : ℝ := ((t_delta - nt_delta_t : ℤ) : ℝ) / 7
    (p.1, weight t_delta (if g_delta < 1 then 1 else g_delta)))
  data ++ [(latest_bup, 1e4)]

/-- Line 88: the sampling key `ki = random()**(1./wi)` for draw `u` and
weight `wi` (real power, as Python's float `**`). -/
noncomputable def rkey (u w : ℝ) : ℝ := u ^ (1 / w)

/-- Lexicographic order on `(key, item)` pairs, as Python compares the
tuples stored in the heap. -/
def plex (p q : ℝ × ℕ) : Prop := p.1 < q.1 ∨ (p.1 = q.1 ∧ p.2 ≤ q.2)

noncomputable instance : DecidableRel plex := fun _ _ => by
  unfold plex; infer_instance

/-- Lexicographic minimum of two heap entries (the smaller tuple). -/
noncomputable def pmin (p q : ℝ × ℕ) : ℝ × ℕ :=
  if q.1 < p.1 then q
  else if p.1 < q.1 then p
  else if q.2 < p.2 then q else p

/-- `heapq.nsmallest(1, rsv)[0]`: the minimum `(key, item)` pair of the
reservoir (`none` on an empty reservoir, where the source would raise). -/
noncomputable def hMin : List (ℝ × ℕ) → Option (ℝ × ℕ)
  | [] => none
  | p :: ps => some (ps.foldl pmin p)

/-- One iteration of the `aes` loop body (lines 87-98) on the pair with
stream index `n`, key `ki` and element `el`:
push while `n < k`; otherwise, only when the reservoir holds more than one
entry, compare `ki` with the minimum key and `heapreplace` if strictly
larger. -/
noncomputable def aesStep (k : ℕ) (rsv : List (ℝ × ℕ)) (n : ℕ) (ki : ℝ)
    (el : ℕ) : List (ℝ × ℕ) :=
  if n < k then (ki, el) :: rsv
  else if 1 < rsv.length then
    match hMin rsv with
    | some t => if t.1 < ki then (ki, el) :: rsv.erase t else rsv
    | none => rsv
  else rsv

/-- The `for n, (el, wi) in enumerate(strm)` loop of `aes`, carrying the
enumeration index `n` and the reservoir; the key of the item at index `n` is
computed from the draw `us n`. -/
noncomputable def aesGo (k : ℕ) (us : ℕ → ℝ) :
    ℕ → List (ℝ × ℕ) → List (ℕ × ℝ) → List (ℝ × ℕ)
  | _, rsv, [] => rsv
  | n, rsv, (el, wi) :: rest =>
      aesGo k us (n + 1) (aesStep k rsv n (rkey (us n) wi) el) rest

/-- `heapq.nlargest(k, rsv)`: the `k` largest pairs in descending order. -/
noncomputable def nlargest (k : ℕ) (l : List (ℝ × ℕ)) : List (ℝ × ℕ) :=
  (l.insertionSort (fun p q => plex q p)).take k

/-- Lines 72-103, `aes`: weighted reservoir sampling without replacement;
returns the items of the `k` largest-keyed reservoir entries, largest first. -/
noncomputable def aes (strm : List (ℕ × ℝ)) (k : ℕ) (us : ℕ → ℝ) : List ℕ :=
  (nlargest k (aesGo k us 0 [] strm)).map Prod.snd

/-- The keyed stream: pair each stream element (from index `n₀` on) with the
sampling key `aes` computes for it.  Specification-side helper used to state
hypotheses about the random keys; `aes` itself computes the same keys inline. -/
noncomputable def keyed (us : ℕ → ℝ) (n₀ : ℕ) (strm : List (ℕ × ℝ)) :
    List (ℝ × ℕ) :=
  (strm.enumFrom n₀).map (fun q => (rkey (us q.1) q.2.2, q.2.1))

/-- The backups `timewarp` leaves out of the reservoir (lines 145-150):
`todel_bups = [bup for bup in bups if bup not in res_bups]` with
`res_bups = set(aes(gen_wts(bups), k=len(bups)-1))`. -/
noncomputable def todelOf (ageDays : ℕ → ℤ) (bups : List ℕ) (us : ℕ → ℝ) :
    List ℕ :=
  let res_size := bups.length - 1
  let res_data := gen_wts ageDays bups
  let res_bups := aes res_data res_size us
  bups.filter (fun b => decide (b ∉ res_bups))

/-- Result of one `timewarp` call: the returned candidate (dry-run mode),
the files handed to `del_bups` (live mode) and the number of invocations of
the external deletion command `wrapper('/usr/bin/sudo', '/usr/bin/tmutil',
'delete', f)` — one per file in `del_bups` (lines 117-122). -/
structure WarpResult where
  candidate : Option ℕ
  deleted : List ℕ
  delCalls : ℕ
  deriving Repr

/-- Lines 133-155, `timewarp`: one planning round.  In `'live'` mode every
backup in `todel_bups` is deleted (the function returns `None`); otherwise
`todel_bups[0]` is returned and nothing is deleted.  (`threshold` is accepted
and ignored, as in the source; the base path only affects the joined file
names, which are modelled by the identifiers themselves.) -/
noncomputable def timewarp (ageDays : ℕ → ℤ) (bups : List ℕ) (_threshold : ℤ)
    (mode : String) (us : ℕ → ℝ) : WarpResult :=
  let todel_bups := todelOf ageDays bups us
  if mode = "live" then ⟨none, todel_bups, todel_bups.length⟩
  else ⟨todel_bups.head?, [], 0⟩

/-- The chronologically latest backup: `bups[-1]` after the chronological
sort (line 50). -/
def latestOf (bups : List ℕ) : ℕ := (bups.insertionSort (· ≤ ·)).getLastD 0

/-- Lines 173: the audit-log formatter `'%(asctime)s\t%(message)s'` — one
line per record, timestamp, a tab, then the message. -/
def logLine (asctime msg : String) : String := asctime ++ "\t" ++ msg

/-- `os.path.join(volume, name)` for a relative `name`. -/
def pathJoin (volume name : String) : String := volume ++ "/" ++ name

/-- Raw JSON configuration: the recognized fields, each possibly absent. -/
structure Config where
  volume : Option String
  mode : Option String
  threshold : Option ℤ
  log : Option String

/-- Outcome of `validate_config` (lines 179-194): either the tuple
`(volume, mode, threshold, log)`, or the process printed the diagnostic
`"The config file is mis-configured."` and exited with the given status. -/
inductive ValidateResult
  | ok (volume : String) (mode : String) (threshold : ℤ) (log : Option String)
  | exited (status : ℕ) (printedDiagnostic : Bool)
  deriving DecidableEq

/-- Lines 179-194, `validate_config`.  A missing `volume`, `mode` or
`threshold` key raises `KeyError`; a `volume` that does not exist skips the
`if tm_path is True` block so the `return` hits the unbound local `mode` and
raises `NameError`.  Every exception lands in the bare `except:` which prints
the diagnostic, after which `sys.exit(0)` runs — exit status 0. -/
def validate_config (pathExists : String → Bool) (cfg : Config) :
    ValidateResult :=
  match cfg.volume with
  | none => .exited 0 true
  | some volume =>
    if pathExists volume then
      match cfg.mode with
      | none => .exited 0 true
      | some mode =>
        match cfg.threshold with
        | none => .exited 0 true
        | some threshold => .ok volume mode threshold cfg.log
    else .exited 0 true

/-- One iteration of either `handler` loop: the snapshot count at the start
of the round, the dry-run candidate, the number of deletion-command
invocations, the audit-log lines appended, and the free-space value after
the round. -/
structure Round where
  nBups : ℕ
  candidate : Option ℕ
  delCalls : ℕ
  logLines : List String
  freeAfter : ℚ

/-- Lines 210-217, the dry-run loop of `handler`:
`while free < threshold and len(bups) > 0`, one `timewarp` round per
iteration, `bups.remove(bup_name)`, `free += ave_size`, print, and — when a
log is configured — one `l.info(os.path.join(volume, bup_name))` line.
`fuel` only bounds the recursion depth for Lean; the last component flags the
`IndexError` Python would raise were `todel_bups` empty.  `uss r` supplies
the random draws of round `r`. -/
noncomputable def dryGo (ageDays : ℕ → ℤ) (uss : ℕ → ℕ → ℝ) (volume : String)
    (nm : ℕ → String) (asctime : String) (hasLog : Bool) (mode : String)
    (ths : ℤ) (ave : ℚ) :
    ℕ → ℕ → List ℕ → ℚ → List Round × ℚ × List ℕ × Bool
  | 0, _, bups, free => ([], free, bups, false)
  | fuel + 1, r, bups, free =>
    if free < (ths : ℚ) ∧ bups ≠ [] then
      match (timewarp ageDays bups ths mode (uss r)).candidate with
      | none => ([], free, bups, true)
      | some c =>
        let bups' := bups.erase c
        let free' := free + ave
        let lines := if hasLog then [logLine asctime (pathJoin volume (nm c))]
          else []
        let rest := dryGo ageDays uss volume nm asctime hasLog mode ths ave
          fuel (r + 1) bups' free'
        (⟨bups.length, some c, 0, lines, free'⟩ :: rest.1, rest.2)
    else ([], free, bups, false)

/-- Lines 219-222, the live loop of `handler`:
`while free < threshold and len(get_bups(volume)) > 0`, one live `timewarp`
round per iteration (which deletes `todel_bups` from the volume), then
`free = df(volume)` re-measured — modelled by the oracle `dfs (r+1)` after
round `r`.  No audit-log line is written in this branch. -/
noncomputable def liveGo (ageDays : ℕ → ℤ) (uss : ℕ → ℕ → ℝ) (dfs : ℕ → ℤ)
    (ths : ℤ) : ℕ → ℕ → List ℕ → ℤ → List Round × ℤ × List ℕ
  | 0, _, fs, free => ([], free, fs)
  | fuel + 1, r, fs, free =>
    if free < ths ∧ fs ≠ [] then
      let w := timewarp ageDays fs ths "live" (uss r)
      let fs' := fs.filter (fun b => decide (b ∉ w.deleted))
      let free' := dfs (r + 1)
      let rest := liveGo ageDays uss dfs ths fuel (r + 1) fs' free'
      (⟨fs.length, w.candidate, w.delCalls, [], (free' : ℚ)⟩ :: rest.1, rest.2)
    else ([], free, fs)

/-- Overall outcome of `handler`. -/
structure HandlerResult where
  configFailed : Bool
  trace : List Round
  finalFree : ℚ
  finalBups : List ℕ

/-- Lines 197-222, `handler`: validate the configuration (a failure exits
with status 0 before anything else happens), read the snapshot catalogue
`fs` and the initial free space `dfs 0`, then run the dry-run loop
(`mode != 'live'`, with `ave_size = float(free)/len(bups)` fixed before the
loop) or the live loop.  (With `mode ≠ 'live'` and an empty catalogue the
source raises `ZeroDivisionError` at `ave_size`; in the model `ave` is then
the junk value `free/0 = 0`, and the loop guard fails at once either way, so
no round is ever produced.) -/
noncomputable def handler (pathExists : String → Bool) (ageDays : ℕ → ℤ)
    (uss : ℕ → ℕ → ℝ) (dfs : ℕ → ℤ) (nm : ℕ → String) (asctime : String)
    (fs : List ℕ) (cfg : Config) : HandlerResult :=
  match validate_config pathExists cfg with
  | .exited _ _ => ⟨true, [], 0, fs⟩
  | .ok volume mode ths log =>
    let free := dfs 0
    if mode ≠ "live" then
      let bups := fs
      let ave : ℚ := (free : ℚ) / (bups.length : ℚ)
      let res := dryGo ageDays uss volume nm asctime log.isSome mode ths ave
        (bups.length + 1) 0 bups (free : ℚ)
      ⟨false, res.1, res.2.1, res.2.2.1⟩
    else
      let res := liveGo ageDays uss dfs ths (fs.length + 1) 0 fs free
      ⟨false, res.1, (res.2.1 : ℚ), res.2.2⟩

/-! ### Heap-minimum lemmas -/

theorem pmin_eq_or (p q : ℝ × ℕ) : pmin p q = p ∨ pmin p q = q := by
  unfold pmin
  split_ifs <;> simp

theorem pmin_fst_le_left (p q : ℝ × ℕ) : (pmin p q).1 ≤ p.1 := by
  unfold pmin
  split_ifs with h1 h2 h3
  · exact h1.le
  · exact le_refl _
  · exact le_of_not_lt h2
  · exact le_refl _

theorem pmin_fst_le_right (p q : ℝ × ℕ) : (pmin p q).1 ≤ q.1 := by
  unfold pmin
  split_ifs with h1 h2 h3
  · exact le_refl _
  · exact h2.le
  · exact le_refl _
  · exact le_of_not_lt h1

theorem foldl_pmin_mem (ps : List (ℝ × ℕ)) (p : ℝ × ℕ) :
    ps.foldl pmin p ∈ p :: ps := by
  induction ps generalizing p with
  | nil => simp
  | cons q ps ih =>
    have h := ih (pmin p q)
    simp only [List.foldl_cons]
    rcases List.mem_cons.1 h with h | h
    · rcases pmin_eq_or p q with hpq | hpq <;> rw [h, hpq] <;> simp
    · simp [h]

theorem foldl_pmin_fst_le (ps : List (ℝ × ℕ)) (p : ℝ × ℕ) :
    (ps.foldl pmin p).1 ≤ p.1 ∧ ∀ q ∈ ps, (ps.foldl pmin p).1 ≤ q.1 := by
  induction ps generalizing p with
  | nil => simp
  | cons q ps ih =>
    obtain ⟨h1, h2⟩ := ih (pmin p q)
    refine ⟨le_trans h1 (pmin_fst_le_left p q), ?_⟩
    intro r hr
    rcases List.mem_cons.1 hr with rfl | hr
    · exact le_trans h1 (pmin_fst_le_right p r)
    · exact h2 r hr

theorem hMin_mem {l : List (ℝ × ℕ)} {m : ℝ × ℕ} (h : hMin l = some m) :
    m ∈ l := by
  cases l with
  | nil => simp [hMin] at h
  | cons p ps =>
    simp only [hMin, Option.some.injEq] at h
    exact h ▸ foldl_pmin_mem ps p

theorem hMin_fst_le {l : List (ℝ × ℕ)} {m : ℝ × ℕ} (h : hMin l = some m) :
    ∀ p ∈ l, m.1 ≤ p.1 := by
  cases l with
  | nil => simp [hMin] at h
  | cons p ps =>
    simp only [hMin, Option.some.injEq] at h
    intro q hq
    rcases List.mem_cons.1 hq with rfl | hq
    · exact h ▸ (foldl_pmin_fst_le ps q).1
    · exact h ▸ (foldl_pmin_fst_le ps p).2 q hq

theorem hMin_isSome {l : List (ℝ × ℕ)} (h : l ≠ []) : ∃ m, hMin l = some m := by
  cases l with
  | nil => exact absurd rfl h
  | cons p ps => exact ⟨ps.foldl pmin p, rfl⟩

/-! ### Reservoir-loop invariants -/

theorem aesStep_length {k : ℕ} {rsv : List (ℝ × ℕ)} {n : ℕ} (ki : ℝ) (el : ℕ)
    (h : rsv.length = min n k) :
    (aesStep k rsv n ki el).length = min (n + 1) k := by
  unfold aesStep
  by_cases hnk : n < k
  · rw [if_pos hnk]
    simp only [List.length_cons, h]
    omega
  · rw [if_neg hnk]
    have hk : min n k = k := by omega
    by_cases hlen : 1 < rsv.length
    · rw [if_pos hlen]
      have hne : rsv ≠ [] := by
        intro hnil; rw [hnil] at hlen; simp at hlen
      obtain ⟨m, hm⟩ := hMin_isSome hne
      simp only [hm]
      by_cases hki : m.1 < ki
      · rw [if_pos hki]
        have := List.length_erase_of_mem (hMin_mem hm)
        simp only [List.length_cons, this, h, hk]
        omega
      · rw [if_neg hki]; rw [h]; omega
    · rw [if_neg hlen]; rw [h]; omega

theorem aesGo_length (k : ℕ) (us : ℕ → ℝ) (ps : List (ℕ × ℝ)) :
    ∀ (n : ℕ) (rsv : List (ℝ × ℕ)), rsv.length = min n k →
    (aesGo k us n rsv ps).length = min (n + ps.length) k := by
  induction ps with
  | nil => intro n rsv h; simpa [aesGo] using h
  | cons p rest ih =>
    intro n rsv h
    obtain ⟨el, wi⟩ := p
    simp only [aesGo]
    have := ih (n + 1) (aesStep k rsv n (rkey (us n) wi) el)
      (aesStep_length _ _ h)
    rw [this]
    congr 1
    simp only [List.length_cons]
    omega

theorem aesStep_snd_sub {k : ℕ} {rsv : List (ℝ × ℕ)} {n : ℕ} {ki : ℝ}
    {el : ℕ} {b : ℕ} (hb : b ∈ (aesStep k rsv n ki el).map Prod.snd) :
    b = el ∨ b ∈ rsv.map Prod.snd := by
  unfold aesStep at hb
  split_ifs at hb with h1 h2
  · simp only [List.map_cons, List.mem_cons] at hb
    tauto
  · rcases hm : hMin rsv with _ | m
    · simp only [hm] at hb; tauto
    · simp only [hm] at hb
      by_cases hki : m.1 < ki
      · rw [if_pos hki] at hb
        simp only [List.map_cons, List.mem_cons] at hb
        rcases hb with rfl | hb
        · exact Or.inl rfl
        · exact Or.inr (List.map_subset _ (rsv.erase_subset m) hb)
      · rw [if_neg hki] at hb; tauto
  · tauto

theorem aesGo_snd_sub (k : ℕ) (us : ℕ → ℝ) (ps : List (ℕ × ℝ)) :
    ∀ (n : ℕ) (rsv : List (ℝ × ℕ)) (b : ℕ),
    b ∈ (aesGo k us n rsv ps).map Prod.snd →
    b ∈ rsv.map Prod.snd ∨ b ∈ ps.map Prod.fst := by
  induction ps with
  | nil => intro n rsv b hb; simp only [aesGo] at hb; exact Or.inl hb
  | cons p rest ih =>
    intro n rsv b hb
    obtain ⟨el, wi⟩ := p
    simp only [aesGo] at hb
    rcases ih _ _ _ hb with h | h
    · rcases aesStep_snd_sub h with rfl | h
      · simp
      · exact Or.inl h
    · simp only [List.map_cons, List.mem_cons]
      tauto

theorem aesStep_snd_nodup {k : ℕ} {rsv : List (ℝ × ℕ)} {n : ℕ} {ki : ℝ}
    {el : ℕ} {rest : List ℕ}
    (h : (rsv.map Prod.snd ++ el :: rest).Nodup) :
    ((aesStep k rsv n ki el).map Prod.snd ++ rest).Nodup := by
  have h' : (el :: (rsv.map Prod.snd ++ rest)).Nodup :=
    List.perm_middle.nodup h
  simp only [List.nodup_cons, List.mem_append] at h'
  obtain ⟨hel, hnd⟩ := h'
  unfold aesStep
  split_ifs with h1 h2
  · simp only [List.map_cons, List.cons_append, List.nodup_cons]
    exact ⟨fun hc => hel (List.mem_append.1 hc), hnd⟩
  · rcases hm : hMin rsv with _ | m
    · simp only [hm]; exact hnd
    · simp only [hm]
      by_cases hki : m.1 < ki
      · rw [if_pos hki]
        have hsub : List.Sublist ((rsv.erase m).map Prod.snd)
            (rsv.map Prod.snd) := (rsv.erase_sublist m).map Prod.snd
        simp only [List.map_cons, List.cons_append, List.nodup_cons,
          List.mem_append]
        constructor
        · intro hc
          rcases hc with hc | hc
          · exact hel (Or.inl (hsub.subset hc))
          · exact hel (Or.inr hc)
        · exact hnd.sublist (hsub.append (List.Sublist.refl rest))
      · rw [if_neg hki]; exact hnd
  · exact hnd

theorem aesGo_snd_nodup (k : ℕ) (us : ℕ → ℝ) (ps : List (ℕ × ℝ)) :
    ∀ (n : ℕ) (rsv : List (ℝ × ℕ)),
    (rsv.map Prod.snd ++ ps.map Prod.fst).Nodup →
    ((aesGo k us n rsv ps).map Prod.snd).Nodup := by
  induction ps with
  | nil => intro n rsv h; simpa [aesGo] using h
  | cons p rest ih =>
    intro n rsv h
    obtain ⟨el, wi⟩ := p
    simp only [aesGo]
    exact ih _ _ (aesStep_snd_nodup (by simpa using h))

theorem aesGo_append (k : ℕ) (us : ℕ → ℝ) (ps qs : List (ℕ × ℝ)) :
    ∀ (n : ℕ) (rsv : List (ℝ × ℕ)),
    aesGo k us n rsv (ps ++ qs) =
      aesGo k us (n + ps.length) (aesGo k us n rsv ps) qs := by
  induction ps with
  | nil => intro n rsv; simp [aesGo]
  | cons p rest ih =>
    intro n rsv
    obtain ⟨el, wi⟩ := p
    simp only [List.cons_append, aesGo, List.length_cons, List.append_eq]
    rw [ih]
    have harith : n + 1 + rest.length = n + (rest.length + 1) := by omega
    rw [harith]

theorem aesGo_fill (k : ℕ) (us : ℕ → ℝ) (ps : List (ℕ × ℝ)) :
    ∀ (n : ℕ) (rsv : List (ℝ × ℕ)), n + ps.length ≤ k →
    aesGo k us n rsv ps = (keyed us n ps).reverse ++ rsv := by
  induction ps with
  | nil => intro n rsv _; simp [aesGo, keyed]
  | cons p rest ih =>
    intro n rsv h
    obtain ⟨el, wi⟩ := p
    have hnk : n < k := by simp only [List.length_cons] at h; omega
    simp only [aesGo, aesStep, if_pos hnk]
    rw [ih (n + 1) _ (by simp only [List.length_cons] at h; omega)]
    simp [keyed, List.enumFrom_cons]

theorem aesGo_stay (k : ℕ) (us : ℕ → ℝ) (ps : List (ℕ × ℝ)) :
    ∀ (n : ℕ) (rsv : List (ℝ × ℕ)), k ≤ n → rsv.length ≤ 1 →
    aesGo k us n rsv ps = rsv := by
  induction ps with
  | nil => intro n rsv _ _; simp [aesGo]
  | cons p rest ih =>
    intro n rsv hkn hlen
    obtain ⟨el, wi⟩ := p
    have hstep : aesStep k rsv n (rkey (us n) wi) el = rsv := by
      unfold aesStep
      rw [if_neg (by omega), if_neg (by omega)]
    simp only [aesGo, hstep]
    exact ih (n + 1) rsv (by omega) hlen

/-! ### Structure of `gen_wts` and of the `aes` result -/

theorem map_fst_zip_take {α β : Type} :
    ∀ (l : List α) (l' : List β), (l.zip l').map Prod.fst = l.take l'.length := by
  intro l
  induction l with
  | nil => intro l'; simp
  | cons a l ih =>
    intro l'
    cases l' with
    | nil => simp
    | cons b l' => simp [ih]

theorem dropLast_append_getLastD {l : List ℕ} :
    ∀ (d : ℕ), l ≠ [] → l.dropLast ++ [l.getLastD d] = l := by
  induction l with
  | nil => intro d h; exact absurd rfl h
  | cons a l ih =>
    intro d _
    cases l with
    | nil => simp
    | cons b l' =>
      simp only [List.dropLast_cons₂, List.getLastD_cons, List.cons_append]
      have h2 := ih a (List.cons_ne_nil _ _)
      rw [List.getLastD_cons] at h2
      rw [h2]

theorem gen_wts_map_fst (ageDays : ℕ → ℤ) (bups : List ℕ) (h : bups ≠ []) :
    (gen_wts ageDays bups).map Prod.fst = bups.insertionSort (· ≤ ·) := by
  have hsne : bups.insertionSort (· ≤ ·) ≠ [] := by
    intro h0
    apply h
    have := List.length_insertionSort (· ≤ ·) bups
    rw [h0] at this
    exact List.length_eq_zero.1 this.symm
  simp only [gen_wts, List.map_append, List.map_map, List.map_cons,
    List.map_nil]
  rw [show (Prod.fst ∘ fun p : ℕ × ℕ =>
      (p.1, weight (ageDays p.1)
        (if ((ageDays p.1 - ageDays p.2 : ℤ) : ℝ) / 7 < 1 then 1
         else ((ageDays p.1 - ageDays p.2 : ℤ) : ℝ) / 7))) = Prod.fst from rfl]
  rw [map_fst_zip_take, List.length_drop, ← List.dropLast_eq_take]
  exact dropLast_append_getLastD 0 hsne

theorem gen_wts_length (ageDays : ℕ → ℤ) (bups : List ℕ) (h : bups ≠ []) :
    (gen_wts ageDays bups).length = bups.length := by
  have := congrArg List.length (gen_wts_map_fst ageDays bups h)
  simpa [List.length_insertionSort] using this

theorem aes_length (strm : List (ℕ × ℝ)) (k : ℕ) (us : ℕ → ℝ) :
    (aes strm k us).length = min strm.length k := by
  have hrsv : (aesGo k us 0 [] strm).length = min strm.length k := by
    have := aesGo_length k us strm 0 [] (by simp)
    simpa using this
  simp only [aes, nlargest, List.length_map, List.length_take,
    List.length_insertionSort, hrsv]
  omega

theorem aes_subset {strm : List (ℕ × ℝ)} {k : ℕ} {us : ℕ → ℝ} {b : ℕ}
    (hb : b ∈ aes strm k us) : b ∈ strm.map Prod.fst := by
  simp only [aes, List.mem_map] at hb
  obtain ⟨p, hp, rfl⟩ := hb
  have hp2 : p ∈ aesGo k us 0 [] strm :=
    (List.perm_insertionSort _ _).mem_iff.1 (List.take_subset _ _ hp)
  have := aesGo_snd_sub k us strm 0 [] p.2 (List.mem_map_of_mem Prod.snd hp2)
  simpa using this

theorem aes_nodup {strm : List (ℕ × ℝ)} {k : ℕ} {us : ℕ → ℝ}
    (h : (strm.map Prod.fst).Nodup) : (aes strm k us).Nodup := by
  have hrsv : ((aesGo k us 0 [] strm).map Prod.snd).Nodup :=
    aesGo_snd_nodup k us strm 0 [] (by simpa using h)
  have hperm : List.Perm
      ((aesGo k us 0 [] strm).insertionSort (fun p q => plex q p))
      (aesGo k us 0 [] strm) := List.perm_insertionSort _ _
  have hsorted : (((aesGo k us 0 [] strm).insertionSort
      (fun p q => plex q p)).map Prod.snd).Nodup :=
    (hperm.map Prod.snd).nodup_iff.2 hrsv
  exact hsorted.sublist ((List.take_sublist _ _).map Prod.snd)

theorem todelOf_eq (ageDays : ℕ → ℤ) (bups : List ℕ) (us : ℕ → ℝ) :
    todelOf ageDays bups us = bups.filter
      (fun b => decide (b ∉ aes (gen_wts ageDays bups) (bups.length - 1) us)) :=
  rfl

/-- Central counting fact behind the planner invariant: on a duplicate-free,
nonempty snapshot list, one planning round excludes exactly one snapshot
from the reservoir, whatever the drawn keys are. -/
theorem todelOf_length (ageDays : ℕ → ℤ) (bups : List ℕ) (us : ℕ → ℝ)
    (hnd : bups.Nodup) (hne : bups ≠ []) :
    (todelOf ageDays bups us).length = 1 := by
  set res := aes (gen_wts ageDays bups) (bups.length - 1) us with hres
  have hsortnd : (bups.insertionSort (· ≤ ·)).Nodup :=
    (List.perm_insertionSort _ _).nodup_iff.2 hnd
  have hstrm : ((gen_wts ageDays bups).map Prod.fst).Nodup := by
    rw [gen_wts_map_fst ageDays bups hne]; exact hsortnd
  have hres_nd : res.Nodup := aes_nodup hstrm
  have hres_len : res.length = bups.length - 1 := by
    rw [hres, aes_length, gen_wts_length ageDays bups hne]
    have : 1 ≤ bups.length := List.length_pos.2 hne
    omega
  have hres_sub : res ⊆ bups := by
    intro b hb
    have := aes_subset (hres ▸ hb)
    rw [gen_wts_map_fst ageDays bups hne] at this
    exact (List.perm_insertionSort _ _).subset this
  have htd_nd : (todelOf ageDays bups us).Nodup := by
    rw [todelOf_eq]; exact hnd.filter _
  have hfin : (todelOf ageDays bups us).toFinset =
      bups.toFinset \ res.toFinset := by
    ext a
    simp only [todelOf_eq, List.toFinset_filter, Finset.mem_filter,
      List.mem_toFinset, Finset.mem_sdiff, decide_eq_true_eq]
  have hsubfin : res.toFinset ⊆ bups.toFinset := by
    intro a ha
    rw [List.mem_toFinset] at ha ⊢
    exact hres_sub ha
  have hcard := Finset.card_sdiff hsubfin
  rw [← hfin, List.toFinset_card_of_nodup htd_nd,
    List.toFinset_card_of_nodup hnd, List.toFinset_card_of_nodup hres_nd,
    hres_len] at hcard
  have : 1 ≤ bups.length := List.length_pos.2 hne
  omega

/-! ### Sampler claims -/

theorem aes_k1 (strm : List (ℕ × ℝ)) (us : ℕ → ℝ) :
    aes strm 1 us = (strm.map Prod.fst).take 1 := by
  cases strm with
  | nil => simp [aes, aesGo, nlargest, List.insertionSort]
  | cons p rest =>
    obtain ⟨el, wi⟩ := p
    have hstep : aesStep 1 [] 0 (rkey (us 0) wi) el = [(rkey (us 0) wi, el)] := by
      unfold aesStep
      rw [if_pos (by norm_num : (0 : ℕ) < 1)]
    have h1 : aesGo 1 us 0 [] ((el, wi) :: rest) = [(rkey (us 0) wi, el)] := by
      simp only [aesGo, hstep]
      exact aesGo_stay 1 us rest 1 _ (le_refl 1) (by simp)
    simp [aes, h1, nlargest, List.insertionSort]

/-- C10: with reservoir size `k = 1` the sampler `aes` returns exactly the
first item of the stream (`(strm.map Prod.fst).take 1`), for every choice of
random draws, so two runs with different draws always return the same item:
the replacement branch is guarded by `len(rsv) > 1` and never fires. -/
theorem aes_k1_deterministic (strm : List (ℕ × ℝ)) (us us' : ℕ → ℝ) :
    aes strm 1 us = (strm.map Prod.fst).take 1 ∧
    aes strm 1 us = aes strm 1 us' :=
  ⟨aes_k1 strm us, (aes_k1 strm us).trans (aes_k1 strm us').symm⟩

/-- C2 counterexample: with `k = 1` the reservoir holds its one entry, the
second incoming pair has a strictly larger sampling key (`rkey (1/2) 1 =
1/2 > 1/4 = rkey (1/4) 1`), yet it is discarded and the first item is kept —
the claimed evict-and-insert behaviour fails for `k = 1`. -/
theorem c2_counterexample :
    rkey ((1 : ℝ)/4) 1 < rkey ((1 : ℝ)/2) 1 ∧
    aes [(10, 1), (20, 1)] 1
      (fun n => if n = 0 then (1 : ℝ)/4 else (1 : ℝ)/2) = [10] := by
  constructor
  · simp only [rkey]
    norm_num
  · rw [aes_k1]
    simp

/-- C2 amended: for every reservoir size `k ≥ 2`, once the reservoir holds
`k` entries, an incoming pair at stream position `n ≥ k` whose key is
strictly larger than the reservoir's minimum key evicts that minimum and is
inserted, and a pair whose key is not strictly larger is discarded.  (For
`k = 1` the `len(rsv) > 1` guard makes the step a no-op instead — see the
counterexample.) -/
theorem aesStep_full_spec (k : ℕ) (rsv : List (ℝ × ℕ)) (n : ℕ) (ki : ℝ)
    (el : ℕ) (t : ℝ × ℕ) (hk : 2 ≤ k) (hlen : rsv.length = k) (hn : k ≤ n)
    (ht : hMin rsv = some t) :
    (∀ p ∈ rsv, t.1 ≤ p.1) ∧
    (t.1 < ki → aesStep k rsv n ki el = (ki, el) :: rsv.erase t) ∧
    (¬ t.1 < ki → aesStep k rsv n ki el = rsv) := by
  refine ⟨hMin_fst_le ht, ?_, ?_⟩ <;> intro hki <;> unfold aesStep <;>
    rw [if_neg (by omega), if_pos (by omega)] <;> simp only [ht]
  · rw [if_pos hki]
  · rw [if_neg hki]

theorem c2_amended_witness :
    (∀ p ∈ [((2 : ℝ), 5), ((1 : ℝ), 7)], ((1 : ℝ), (7 : ℕ)).1 ≤ p.1) ∧
    (((1 : ℝ), (7 : ℕ)).1 < 3 →
      aesStep 2 [((2 : ℝ), 5), ((1 : ℝ), 7)] 2 3 9 =
        (3, 9) :: [((2 : ℝ), 5), ((1 : ℝ), 7)].erase ((1 : ℝ), 7)) ∧
    (¬ ((1 : ℝ), (7 : ℕ)).1 < 3 →
      aesStep 2 [((2 : ℝ), 5), ((1 : ℝ), 7)] 2 3 9 =
        [((2 : ℝ), 5), ((1 : ℝ), 7)]) :=
  aesStep_full_spec 2 [((2 : ℝ), 5), ((1 : ℝ), 7)] 2 3 9 ((1 : ℝ), 7)
    (le_refl 2) rfl (le_refl 2)
    (by norm_num [hMin, pmin, List.foldl])

/-! ### Planner claims -/

theorem keyed_append (us : ℕ → ℝ) (n : ℕ) (ps qs : List (ℕ × ℝ)) :
    keyed us n (ps ++ qs) = keyed us n ps ++ keyed us (n + ps.length) qs := by
  simp [keyed, List.enumFrom_append]

theorem keyed_singleton (us : ℕ → ℝ) (n : ℕ) (el : ℕ) (wi : ℝ) :
    keyed us n [(el, wi)] = [(rkey (us n) wi, el)] := by
  simp [keyed]

theorem keyed_length (us : ℕ → ℝ) (n : ℕ) (ps : List (ℕ × ℝ)) :
    (keyed us n ps).length = ps.length := by
  simp [keyed]

/-- C1 counterexample: a planning round on the two snapshots `10 < 20`
(whatever the ages and the random draws — here ages `0` and draws `1/2`)
excludes exactly the chronologically latest snapshot `20` from the retained
set: with `n = 2` the reservoir size is `k = 1`, the sampler keeps the first
stream item (the oldest snapshot), and the latest is the eviction candidate,
refuting "the excluded snapshot is never the chronologically latest one". -/
theorem c1_counterexample :
    latestOf [10, 20] = 20 ∧
    todelOf (fun _ => 0) [10, 20] (fun _ => (1 : ℝ)/2) = [20] ∧
    (timewarp (fun _ => 0) [10, 20] 100 "safe"
      (fun _ => (1 : ℝ)/2)).candidate = some 20 := by
  have htd : todelOf (fun _ => 0) [10, 20] (fun _ => (1 : ℝ)/2) = [20] := by
    rw [todelOf_eq]
    have hres : aes (gen_wts (fun _ => 0) [10, 20]) (([10, 20] : List ℕ).length - 1)
        (fun _ => (1 : ℝ)/2) = [10] := by
      have hfst : (gen_wts (fun _ => 0) [10, 20]).map Prod.fst = [10, 20] := by
        rw [gen_wts_map_fst _ _ (by simp)]
        simp [List.insertionSort, List.orderedInsert]
      rw [show ([10, 20] : List ℕ).length - 1 = 1 from rfl, aes_k1, hfst]
      rfl
    rw [hres]
    rfl
  refine ⟨rfl, htd, ?_⟩
  have hcand : (timewarp (fun _ => 0) [10, 20] 100 "safe"
      (fun _ => (1 : ℝ)/2)).candidate =
      (todelOf (fun _ => 0) [10, 20] (fun _ => (1 : ℝ)/2)).head? := rfl
  rw [hcand, htd]
  rfl

/-- C1 amended: for a duplicate-free snapshot set of size `n ≥ 3`, exactly
one snapshot is excluded from the retained set per planning round, and the
excluded snapshot is not the chronologically latest one whenever the
latest's sampling key is strictly larger than every other sampling key of
the round.  (For `n = 2` exactly one snapshot is still excluded, but it is
always the latest one — see the counterexample.) -/
theorem todelOf_one_not_latest (ageDays : ℕ → ℤ) (bups : List ℕ)
    (us : ℕ → ℝ) (hnd : bups.Nodup) (h3 : 3 ≤ bups.length)
    (hkey : ∀ p ∈ (keyed us 0 (gen_wts ageDays bups)).dropLast,
      p.1 < ((keyed us 0 (gen_wts ageDays bups)).getLastD (0, 0)).1) :
    (todelOf ageDays bups us).length = 1 ∧
    latestOf bups ∉ todelOf ageDays bups us := by
  have hne : bups ≠ [] := by
    intro h0; rw [h0] at h3; simp at h3
  refine ⟨todelOf_length ageDays bups us hnd hne, ?_⟩
  -- notation for the pieces of `gen_wts`
  set s := bups.insertionSort (· ≤ ·) with hs
  set data := (s.zip (s.drop 1)).map (fun p : ℕ × ℕ =>
    (p.1, weight (ageDays p.1)
      (if ((ageDays p.1 - ageDays p.2 : ℤ) : ℝ) / 7 < 1 then 1
       else ((ageDays p.1 - ageDays p.2 : ℤ) : ℝ) / 7))) with hdata
  have hg : gen_wts ageDays bups = data ++ [(latestOf bups, 1e4)] := rfl
  have hslen : s.length = bups.length := List.length_insertionSort _ _
  have hdlen : data.length = bups.length - 1 := by
    rw [hdata]
    simp only [List.length_map, List.length_zip, List.length_drop, hslen]
    omega
  set k := bups.length - 1 with hk
  set L := latestOf bups with hL
  set kl := rkey (us k) 1e4 with hkl
  -- the reservoir after the fill phase
  have hfill : aesGo k us 0 [] data = (keyed us 0 data).reverse ++ [] :=
    aesGo_fill k us data 0 [] (by omega)
  have hrsv0len : ((keyed us 0 data).reverse ++ ([] : List (ℝ × ℕ))).length
      = k := by
    simp [keyed_length, hdlen]
  -- the hypothesis, split along `gen_wts = data ++ [latest]`
  have hksplit : keyed us 0 (gen_wts ageDays bups) =
      keyed us 0 data ++ [(kl, L)] := by
    rw [hg, keyed_append, keyed_singleton]
    simp [hdlen]
  have hkey' : ∀ p ∈ keyed us 0 data, p.1 < kl := by
    intro p hp
    have h1 := hkey p (by
      rw [hksplit, List.dropLast_concat]
      exact hp)
    rw [hksplit, List.getLastD_concat] at h1
    exact h1
  -- the final reservoir: the latest replaces the minimum
  obtain ⟨m, hm⟩ := hMin_isSome (l := (keyed us 0 data).reverse ++ [])
    (by intro h0; rw [h0] at hrsv0len; simp at hrsv0len; omega)
  have hmmem : m ∈ keyed us 0 data := by
    have := hMin_mem hm
    simpa using this
  have hstep : aesStep k ((keyed us 0 data).reverse ++ []) k kl L =
      (kl, L) :: ((keyed us 0 data).reverse ++ []).erase m := by
    unfold aesStep
    rw [if_neg (by omega), if_pos (by rw [hrsv0len]; omega)]
    simp only [hm]
    rw [if_pos (hkey' m hmmem)]
  have hrsv : aesGo k us 0 [] (gen_wts ageDays bups) =
      (kl, L) :: ((keyed us 0 data).reverse ++ []).erase m := by
    rw [hg, aesGo_append, hfill, hdlen, Nat.zero_add]
    simp only [aesGo, ← hkl, hstep]
  -- the latest is in the returned reservoir sample
  have hlen2 : ((kl, L) :: ((keyed us 0 data).reverse ++ []).erase m).length
      = k := by
    simp only [List.length_cons,
      List.length_erase_of_mem (by simpa using hmmem : m ∈ (keyed us 0 data).reverse ++ [])]
    rw [hrsv0len]
    omega
  have hLres : L ∈ aes (gen_wts ageDays bups) k us := by
    simp only [aes, hrsv, nlargest]
    rw [List.take_of_length_le (by rw [List.length_insertionSort, hlen2])]
    have hperm : List.Perm
        (((kl, L) :: ((keyed us 0 data).reverse ++ []).erase m).insertionSort
          (fun p q => plex q p))
        ((kl, L) :: ((keyed us 0 data).reverse ++ []).erase m) :=
      List.perm_insertionSort _ _
    exact List.mem_map_of_mem Prod.snd (hperm.mem_iff.2 (List.mem_cons_self _ _))
  -- hence it is not among the excluded snapshots
  intro hcon
  rw [todelOf_eq] at hcon
  have := List.mem_filter.1 hcon
  rw [decide_eq_true_eq] at this
  exact this.2 (hk ▸ hLres)

theorem c1_amended_witness :
    ([1, 2, 3] : List ℕ).Nodup ∧ 3 ≤ ([1, 2, 3] : List ℕ).length ∧
    (todelOf (fun _ => 0) [1, 2, 3]
      (fun n => if n < 2 then (0 : ℝ) else 1)).length = 1 ∧
    latestOf [1, 2, 3] ∉ todelOf (fun _ => 0) [1, 2, 3]
      (fun n => if n < 2 then (0 : ℝ) else 1) := by
  have hw : weight 0 1 = 101 := by
    norm_num [weight, Real.log_one]
  have hg : gen_wts (fun _ => 0) [1, 2, 3] =
      [(1, weight 0 1), (2, weight 0 1), (3, 1e4)] := by
    norm_num [gen_wts, List.insertionSort, List.orderedInsert]
  have hk3 : keyed (fun n => if n < 2 then (0 : ℝ) else 1) 0
      [(1, weight 0 1), (2, weight 0 1), (3, (1e4 : ℝ))] =
      [(rkey 0 (weight 0 1), 1), (rkey 0 (weight 0 1), 2),
        (rkey 1 1e4, 3)] := by
    norm_num [keyed, List.enumFrom]
  have h0 : rkey 0 (weight 0 1) = 0 := by
    rw [rkey, hw]
    exact Real.zero_rpow (by norm_num)
  have h1 : rkey 1 (1e4 : ℝ) = 1 := Real.one_rpow _
  have hkey : ∀ p ∈ (keyed (fun n => if n < 2 then (0 : ℝ) else 1) 0
      (gen_wts (fun _ => 0) [1, 2, 3])).dropLast,
      p.1 < ((keyed (fun n => if n < 2 then (0 : ℝ) else 1) 0
        (gen_wts (fun _ => 0) [1, 2, 3])).getLastD (0, 0)).1 := by
    intro p hp
    rw [hg, hk3] at hp ⊢
    simp only [List.dropLast_cons₂, List.dropLast_single,
      List.getLastD_cons, List.getLastD_nil] at hp ⊢
    simp only [List.mem_cons, List.not_mem_nil, or_false] at hp
    rcases hp with rfl | rfl <;> rw [h0, h1] <;> norm_num
  obtain ⟨ha, hb⟩ := todelOf_one_not_latest (fun _ => 0) [1, 2, 3]
    (fun n => if n < 2 then (0 : ℝ) else 1) (by decide) (by decide) hkey
  exact ⟨by decide, by decide, ha, hb⟩

/-! ### Weight-model claims -/

/-- C8: on a chronologically sorted input of `n ≥ 2` snapshot timestamps,
every snapshot except the most recent is assigned the weight
`1 + 100·1.618^(−age_days) + 100·ln(gap_weeks)` with
`gap_weeks = max 1 ((age_days − next_age_days)/7)` (the gap clamped below at
one week), and the most recent snapshot is assigned the fixed weight
`1e4 = 10000`. -/
theorem gen_wts_formula (ageDays : ℕ → ℤ) (bups : List ℕ)
    (hsort : bups.Sorted (· < ·)) (h2 : 2 ≤ bups.length) :
    (∀ i (h : i + 1 < bups.length),
      (gen_wts ageDays bups)[i]? =
        some (bups[i],
          1 + 1e2 * (1.618 : ℝ) ^ (-(ageDays bups[i])) +
          1e2 * Real.log (max 1
            (((ageDays bups[i] - ageDays bups[i + 1] : ℤ) : ℝ) / 7)))) ∧
    (gen_wts ageDays bups)[bups.length - 1]? =
      some (bups.getLastD 0, 1e4) := by
  have hsle : bups.Sorted (· ≤ ·) := hsort.imp le_of_lt
  have hss : bups.insertionSort (· ≤ ·) = bups := hsle.insertionSort_eq
  have hg0 : gen_wts ageDays bups =
      (((bups.insertionSort (· ≤ ·)).zip
        ((bups.insertionSort (· ≤ ·)).drop 1)).map (fun p : ℕ × ℕ =>
        (p.1, weight (ageDays p.1)
          (if ((ageDays p.1 - ageDays p.2 : ℤ) : ℝ) / 7 < 1 then 1
           else ((ageDays p.1 - ageDays p.2 : ℤ) : ℝ) / 7)))) ++
      [((bups.insertionSort (· ≤ ·)).getLastD 0, 1e4)] := rfl
  rw [hss] at hg0
  have hdlen : ((bups.zip (bups.drop 1)).map (fun p : ℕ × ℕ =>
      (p.1, weight (ageDays p.1)
        (if ((ageDays p.1 - ageDays p.2 : ℤ) : ℝ) / 7 < 1 then 1
         else ((ageDays p.1 - ageDays p.2 : ℤ) : ℝ) / 7)))).length =
      bups.length - 1 := by
    simp only [List.length_map, List.length_zip, List.length_drop]
    omega
  constructor
  · intro i h
    have hid : i < ((bups.zip (bups.drop 1)).map (fun p : ℕ × ℕ =>
        (p.1, weight (ageDays p.1)
          (if ((ageDays p.1 - ageDays p.2 : ℤ) : ℝ) / 7 < 1 then 1
           else ((ageDays p.1 - ageDays p.2 : ℤ) : ℝ) / 7)))).length := by
      rw [hdlen]; omega
    rw [hg0, List.getElem?_append_left hid, List.getElem?_eq_getElem hid]
    have hzl : i < (bups.zip (bups.drop 1)).length := by
      simpa using hid
    rw [List.getElem_map]
    have hdl : i < (bups.drop 1).length := by
      simp only [List.length_drop]
      omega
    have hzip : (bups.zip (bups.drop 1))[i] =
        (bups[i], (bups.drop 1)[i]) := List.getElem_zip ..
    have hdrop : (bups.drop 1)[i] = bups[i + 1] := by
      rw [List.getElem_drop]
      congr 1
      omega
    rw [hzip, hdrop]
    have hmax : (if ((ageDays bups[i] - ageDays bups[i + 1] : ℤ) : ℝ) / 7 < 1
        then (1 : ℝ)
        else ((ageDays bups[i] - ageDays bups[i + 1] : ℤ) : ℝ) / 7) =
        max 1 (((ageDays bups[i] - ageDays bups[i + 1] : ℤ) : ℝ) / 7) := by
      split_ifs with hlt
      · exact (max_eq_left hlt.le).symm
      · exact (max_eq_right (not_lt.1 hlt)).symm
    simp only [weight, hmax]
  · rw [hg0, List.getElem?_append_right (by rw [hdlen])]
    rw [hdlen, Nat.sub_self]
    rfl

theorem c8_witness :
    ([1, 2] : List ℕ).Sorted (· < ·) ∧ 2 ≤ ([1, 2] : List ℕ).length ∧
    ((∀ i (h : i + 1 < ([1, 2] : List ℕ).length),
      (gen_wts (fun _ => 0) [1, 2])[i]? =
        some (([1, 2] : List ℕ)[i],
          1 + 1e2 * (1.618 : ℝ) ^ (-((fun _ => (0 : ℤ)) ([1, 2] : List ℕ)[i])) +
          1e2 * Real.log (max 1
            ((((fun _ => (0 : ℤ)) ([1, 2] : List ℕ)[i] -
               (fun _ => (0 : ℤ)) ([1, 2] : List ℕ)[i + 1] : ℤ) : ℝ) / 7)))) ∧
    (gen_wts (fun _ => 0) [1, 2])[([1, 2] : List ℕ).length - 1]? =
      some (([1, 2] : List ℕ).getLastD 0, 1e4)) :=
  ⟨by decide, by decide,
    gen_wts_formula (fun _ => 0) [1, 2] (by decide) (by decide)⟩

/-- Bound on computed weights: for day ages within the representable
timestamp range (nonnegative and at most four million days), the weight
formula stays strictly below the fixed latest-snapshot weight `1e4`. -/
theorem weight_lt_ten_thousand {dt ndt : ℤ} (h0 : 0 ≤ dt) (hA : dt ≤ 4000000)
    (h0' : 0 ≤ ndt) :
    weight dt (if ((dt - ndt : ℤ) : ℝ) / 7 < 1 then 1
      else ((dt - ndt : ℤ) : ℝ) / 7) < 1e4 := by
  set g : ℝ := if ((dt - ndt : ℤ) : ℝ) / 7 < 1 then 1
    else ((dt - ndt : ℤ) : ℝ) / 7 with hgdef
  have hg1 : 1 ≤ g := by
    rw [hgdef]
    split_ifs with hlt
    · exact le_refl 1
    · exact le_of_not_lt hlt
  have hgU : g ≤ 571429 := by
    rw [hgdef]
    split_ifs with hlt
    · norm_num
    · have hcast : ((dt - ndt : ℤ) : ℝ) ≤ 4000000 := by
        have hz : (dt - ndt : ℤ) ≤ 4000000 := by omega
        exact_mod_cast hz
      linarith
  have hlog : Real.log g < 14 := by
    rw [Real.log_lt_iff_lt_exp (by linarith)]
    have h14 : Real.exp 14 = Real.exp 1 ^ 14 := by
      rw [← Real.exp_nat_mul]
      norm_num
    have hpow : (2.7182818283 : ℝ) ^ 14 ≤ Real.exp 1 ^ 14 :=
      pow_le_pow_left₀ (by norm_num) (le_of_lt Real.exp_one_gt_d9) 14
    have hbig : (571429 : ℝ) < (2.7182818283 : ℝ) ^ 14 := by norm_num
    linarith
  have hz1 : (1.618 : ℝ) ^ (-dt) ≤ 1 :=
    zpow_le_one_of_nonpos₀ (by norm_num) (by omega)
  unfold weight
  have he2 : (1e2 : ℝ) = 100 := by norm_num
  have he4 : (1e4 : ℝ) = 10000 := by norm_num
  rw [he2, he4]
  linarith

/-- C9: for every valid snapshot sequence (day ages nonnegative and within
the range representable by `YYYYMMDDHHMMSS` timestamps), the fixed weight
`1e4` of the chronologically latest snapshot is strictly greater than the
weight computed for every other snapshot. -/
theorem gen_wts_latest_dominates (ageDays : ℕ → ℤ) (bups : List ℕ)
    (hval : ∀ b ∈ bups, 0 ≤ ageDays b ∧ ageDays b ≤ 4000000) :
    ∀ p ∈ (gen_wts ageDays bups).dropLast,
      p.2 < ((gen_wts ageDays bups).getLastD (0, 0)).2 := by
  intro p hp
  set s := bups.insertionSort (· ≤ ·) with hs
  set data := (s.zip (s.drop 1)).map (fun p : ℕ × ℕ =>
    (p.1, weight (ageDays p.1)
      (if ((ageDays p.1 - ageDays p.2 : ℤ) : ℝ) / 7 < 1 then 1
       else ((ageDays p.1 - ageDays p.2 : ℤ) : ℝ) / 7))) with hdata
  have hg : gen_wts ageDays bups = data ++ [(s.getLastD 0, 1e4)] := rfl
  rw [hg, List.dropLast_concat] at hp
  rw [hg, List.getLastD_concat]
  have hvalS : ∀ b ∈ s, 0 ≤ ageDays b ∧ ageDays b ≤ 4000000 := by
    intro b hb
    exact hval b ((List.perm_insertionSort _ _).subset hb)
  rw [hdata] at hp
  obtain ⟨q, hq, rfl⟩ := List.mem_map.1 hp
  obtain ⟨hq1, hq2⟩ := List.of_mem_zip hq
  obtain ⟨ha1, ha2⟩ := hvalS q.1 hq1
  obtain ⟨hb1, _⟩ := hvalS q.2 (List.drop_subset 1 s hq2)
  exact weight_lt_ten_thousand ha1 ha2 hb1

theorem c9_witness :
    (∀ b ∈ ([1, 2] : List ℕ), 0 ≤ (fun _ => (0 : ℤ)) b ∧
      (fun _ => (0 : ℤ)) b ≤ 4000000) ∧
    ∀ p ∈ (gen_wts (fun _ => 0) [1, 2]).dropLast,
      p.2 < ((gen_wts (fun _ => 0) [1, 2]).getLastD (0, 0)).2 :=
  ⟨by decide, gen_wts_latest_dominates (fun _ => 0) [1, 2] (by decide)⟩

/-! ### Configuration claims -/

/-- C5: on a malformed configuration — a missing `volume`, `mode` or
`threshold` field, or a `volume` path that does not exist — the process
prints the diagnostic and terminates with exit status 0, and the reclaim
loop never runs (no rounds, hence no deletion or other destructive
action). -/
theorem validate_config_malformed (pathExists : String → Bool) (cfg : Config)
    (ageDays : ℕ → ℤ) (uss : ℕ → ℕ → ℝ) (dfs : ℕ → ℤ) (nm : ℕ → String)
    (asctime : String) (fs : List ℕ)
    (hbad : cfg.volume = none ∨
      (∃ v, cfg.volume = some v ∧ pathExists v = false) ∨
      cfg.mode = none ∨ cfg.threshold = none) :
    validate_config pathExists cfg = .exited 0 true ∧
    (handler pathExists ageDays uss dfs nm asctime fs cfg).configFailed = true ∧
    (handler pathExists ageDays uss dfs nm asctime fs cfg).trace = [] := by
  have hv : validate_config pathExists cfg = .exited 0 true := by
    unfold validate_config
    rcases hcv : cfg.volume with _ | v
    · rfl
    · simp only []
      by_cases hpe : pathExists v
      · rw [if_pos hpe]
        rcases hcm : cfg.mode with _ | m
        · rfl
        · rcases hct : cfg.threshold with _ | t
          · rfl
          · exfalso
            rcases hbad with h | ⟨v', hv', hpe'⟩ | h | h
            · rw [hcv] at h; cases h
            · rw [hcv] at hv'
              injection hv' with he
              rw [← he] at hpe'
              rw [hpe'] at hpe
              cases hpe
            · rw [hcm] at h; cases h
            · rw [hct] at h; cases h
      · rw [if_neg hpe]
  refine ⟨hv, ?_, ?_⟩ <;> unfold handler <;> rw [hv]

theorem c5_witness :
    ((⟨none, some "live", some 5, none⟩ : Config).volume = none ∨
      (∃ v, (⟨none, some "live", some 5, none⟩ : Config).volume = some v ∧
        (fun _ => true) v = false) ∨
      (⟨none, some "live", some 5, none⟩ : Config).mode = none ∨
      (⟨none, some "live", some 5, none⟩ : Config).threshold = none) ∧
    validate_config (fun _ => true) ⟨none, some "live", some 5, none⟩ =
      .exited 0 true ∧
    (handler (fun _ => true) (fun _ => 0) (fun _ _ => 0) (fun _ => 0)
      (fun _ => "b") "ts" [5]
      ⟨none, some "live", some 5, none⟩).configFailed = true ∧
    (handler (fun _ => true) (fun _ => 0) (fun _ _ => 0) (fun _ => 0)
      (fun _ => "b") "ts" [5] ⟨none, some "live", some 5, none⟩).trace = [] :=
  ⟨Or.inl rfl, validate_config_malformed (fun _ => true)
    ⟨none, some "live", some 5, none⟩ (fun _ => 0) (fun _ _ => 0) (fun _ => 0)
    (fun _ => "b") "ts" [5] (Or.inl rfl)⟩

/-! ### Deletion-call claims -/

/-- C6: one planning round on a duplicate-free, nonempty snapshot set
invokes the external deletion command exactly once in `'live'` (execute)
mode — `del_bups` runs over the single-element `todel_bups` — and zero
times in any other (simulate) mode. -/
theorem timewarp_delCalls (ageDays : ℕ → ℤ) (bups : List ℕ) (ths : ℤ)
    (us : ℕ → ℝ) (mode : String) (hnd : bups.Nodup) (hne : bups ≠ []) :
    (timewarp ageDays bups ths "live" us).delCalls = 1 ∧
    (mode ≠ "live" → (timewarp ageDays bups ths mode us).delCalls = 0) := by
  constructor
  · have h1 : timewarp ageDays bups ths "live" us =
        ⟨none, todelOf ageDays bups us, (todelOf ageDays bups us).length⟩ := by
      unfold timewarp
      rw [if_pos rfl]
    rw [h1]
    exact todelOf_length ageDays bups us hnd hne
  · intro hm
    have h2 : timewarp ageDays bups ths mode us =
        ⟨(todelOf ageDays bups us).head?, [], 0⟩ := by
      unfold timewarp
      rw [if_neg hm]
    rw [h2]

theorem c6_witness :
    ([3, 5] : List ℕ).Nodup ∧
    (timewarp (fun _ => 0) [3, 5] 7 "live" (fun _ => 0)).delCalls = 1 ∧
    ("safe" ≠ "live" →
      (timewarp (fun _ => 0) [3, 5] 7 "safe" (fun _ => 0)).delCalls = 0) :=
  ⟨by decide, timewarp_delCalls (fun _ => 0) [3, 5] 7 (fun _ => 0) "safe"
    (by decide) (by decide)⟩

/-! ### Reclaim-loop lemmas -/

theorem mem_of_head?_eq_some {l : List ℕ} {a : ℕ} (h : l.head? = some a) :
    a ∈ l := by
  cases l with
  | nil => simp at h
  | cons b t =>
    simp only [List.head?_cons, Option.some.injEq] at h
    simp [h]

theorem timewarp_live_eq (ageDays : ℕ → ℤ) (bups : List ℕ) (ths : ℤ)
    (us : ℕ → ℝ) :
    timewarp ageDays bups ths "live" us =
      ⟨none, todelOf ageDays bups us, (todelOf ageDays bups us).length⟩ := by
  unfold timewarp
  rw [if_pos rfl]

theorem timewarp_candidate_mem {ageDays : ℕ → ℤ} {bups : List ℕ} {ths : ℤ}
    {mode : String} {us : ℕ → ℝ} {c : ℕ}
    (h : (timewarp ageDays bups ths mode us).candidate = some c) : c ∈ bups := by
  by_cases hm : mode = "live"
  · rw [hm, timewarp_live_eq] at h
    simp at h
  · have h2 : timewarp ageDays bups ths mode us =
        ⟨(todelOf ageDays bups us).head?, [], 0⟩ := by
      unfold timewarp
      rw [if_neg hm]
    rw [h2] at h
    have h3 := mem_of_head?_eq_some h
    rw [todelOf_eq] at h3
    exact List.filter_subset' _ h3

theorem validate_config_ok (pathExists : String → Bool) (v m : String)
    (thr : ℤ) (lg : Option String) (hex : pathExists v = true) :
    validate_config pathExists ⟨some v, some m, some thr, lg⟩ =
      .ok v m thr lg := by
  unfold validate_config
  simp [hex]

theorem dryGo_trace_bound (ageDays : ℕ → ℤ) (uss : ℕ → ℕ → ℝ)
    (volume : String) (nm : ℕ → String) (asctime : String) (hasLog : Bool)
    (mode : String) (ths : ℤ) (ave : ℚ) :
    ∀ (fuel r : ℕ) (bups : List ℕ) (free : ℚ),
      (dryGo ageDays uss volume nm asctime hasLog mode ths ave
        fuel r bups free).1.length ≤ bups.length ∧
      ∀ rec ∈ (dryGo ageDays uss volume nm asctime hasLog mode ths ave
        fuel r bups free).1, 1 ≤ rec.nBups := by
  intro fuel
  induction fuel with
  | zero => intro r bups free; simp [dryGo]
  | succ fuel ih =>
    intro r bups free
    simp only [dryGo]
    by_cases hg : free < (ths : ℚ) ∧ bups ≠ []
    · rw [if_pos hg]
      rcases hc : (timewarp ageDays bups ths mode (uss r)).candidate with _ | c
      · simp
      · simp only []
        have hcb : c ∈ bups := timewarp_candidate_mem hc
        have hpos : 1 ≤ bups.length := List.length_pos.2 (List.ne_nil_of_mem hcb)
        have hlen : (bups.erase c).length = bups.length - 1 :=
          List.length_erase_of_mem hcb
        obtain ⟨ih1, ih2⟩ := ih (r + 1) (bups.erase c) (free + ave)
        constructor
        · simp only [List.length_cons]
          omega
        · intro rec hrec
          rcases List.mem_cons.1 hrec with rfl | hrec
          · exact hpos
          · exact ih2 rec hrec
    · rw [if_neg hg]
      simp

theorem dryGo_round_fields (ageDays : ℕ → ℤ) (uss : ℕ → ℕ → ℝ)
    (volume : String) (nm : ℕ → String) (asctime : String) (hasLog : Bool)
    (mode : String) (ths : ℤ) (ave : ℚ) :
    ∀ (fuel r : ℕ) (bups : List ℕ) (free : ℚ),
      (∀ i (h : i < (dryGo ageDays uss volume nm asctime hasLog mode ths ave
          fuel r bups free).1.length),
        ((dryGo ageDays uss volume nm asctime hasLog mode ths ave
          fuel r bups free).1[i]).freeAfter = free + ((i : ℚ) + 1) * ave ∧
        ((dryGo ageDays uss volume nm asctime hasLog mode ths ave
          fuel r bups free).1[i]).delCalls = 0) ∧
      ∀ rec ∈ (dryGo ageDays uss volume nm asctime hasLog mode ths ave
          fuel r bups free).1,
        (hasLog = true → ∃ c, rec.candidate = some c ∧
          rec.logLines = [logLine asctime (pathJoin volume (nm c))]) ∧
        (hasLog = false → rec.logLines = []) := by
  intro fuel
  induction fuel with
  | zero => intro r bups free; simp [dryGo]
  | succ fuel ih =>
    intro r bups free
    by_cases hg : free < (ths : ℚ) ∧ bups ≠ []
    · rcases hc : (timewarp ageDays bups ths mode (uss r)).candidate with _ | c
      · have heq : dryGo ageDays uss volume nm asctime hasLog mode ths ave
            (fuel + 1) r bups free = ([], free, bups, true) := by
          simp only [dryGo]
          rw [if_pos hg]
          simp only [hc]
        rw [heq]
        simp
      · have heq : dryGo ageDays uss volume nm asctime hasLog mode ths ave
            (fuel + 1) r bups free =
            (⟨bups.length, some c, 0,
              if hasLog = true then [logLine asctime (pathJoin volume (nm c))]
              else [],
              free + ave⟩ ::
              (dryGo ageDays uss volume nm asctime hasLog mode ths ave
                fuel (r + 1) (bups.erase c) (free + ave)).1,
             (dryGo ageDays uss volume nm asctime hasLog mode ths ave
                fuel (r + 1) (bups.erase c) (free + ave)).2) := by
          simp only [dryGo]
          rw [if_pos hg]
          simp only [hc]
        rw [heq]
        obtain ⟨ih1, ih2⟩ := ih (r + 1) (bups.erase c) (free + ave)
        constructor
        · intro i h
          cases i with
          | zero =>
            constructor
            · show free + ave = free + ((0 : ℕ) + 1 : ℚ) * ave
              push_cast
              ring
            · rfl
          | succ j =>
            simp only [List.getElem_cons_succ]
            simp only [List.length_cons] at h
            obtain ⟨h1, h2⟩ := ih1 j (by omega)
            refine ⟨?_, h2⟩
            rw [h1]
            push_cast
            ring
        · intro rec hrec
          rcases List.mem_cons.1 hrec with rfl | hrec
          · constructor
            · intro hl
              exact ⟨c, rfl, by simp [hl]⟩
            · intro hl
              simp [hl]
          · exact ih2 rec hrec
    · have heq : dryGo ageDays uss volume nm asctime hasLog mode ths ave
          (fuel + 1) r bups free = ([], free, bups, false) := by
        simp only [dryGo]
        rw [if_neg hg]
      rw [heq]
      simp

theorem liveGo_round_fields (ageDays : ℕ → ℤ) (uss : ℕ → ℕ → ℝ)
    (dfs : ℕ → ℤ) (ths : ℤ) :
    ∀ (fuel r : ℕ) (fs : List ℕ) (free : ℤ),
      ∀ rec ∈ (liveGo ageDays uss dfs ths fuel r fs free).1,
        rec.logLines = [] ∧ 1 ≤ rec.nBups ∧ rec.candidate = none := by
  intro fuel
  induction fuel with
  | zero => intro r fs free; simp [liveGo]
  | succ fuel ih =>
    intro r fs free
    simp only [liveGo]
    by_cases hg : free < ths ∧ fs ≠ []
    · rw [if_pos hg]
      intro rec hrec
      rcases List.mem_cons.1 hrec with rfl | hrec
      · refine ⟨rfl, List.length_pos.2 hg.2, ?_⟩
        show (timewarp ageDays fs ths "live" (uss r)).candidate = none
        rw [timewarp_live_eq]
      · exact ih (r + 1) _ _ rec hrec
    · rw [if_neg hg]
      simp

theorem liveGo_nodup_fields (ageDays : ℕ → ℤ) (uss : ℕ → ℕ → ℝ)
    (dfs : ℕ → ℤ) (ths : ℤ) :
    ∀ (fuel r : ℕ) (fs : List ℕ) (free : ℤ), fs.Nodup →
      (liveGo ageDays uss dfs ths fuel r fs free).1.length ≤ fs.length ∧
      ∀ rec ∈ (liveGo ageDays uss dfs ths fuel r fs free).1,
        rec.delCalls = 1 := by
  intro fuel
  induction fuel with
  | zero => intro r fs free _; simp [liveGo]
  | succ fuel ih =>
    intro r fs free hnd
    simp only [liveGo]
    by_cases hg : free < ths ∧ fs ≠ []
    · rw [if_pos hg]
      have htd : (todelOf ageDays fs (uss r)).length = 1 :=
        todelOf_length ageDays fs (uss r) hnd hg.2
      have hdel : (timewarp ageDays fs ths "live" (uss r)).deleted =
          todelOf ageDays fs (uss r) := by rw [timewarp_live_eq]
      obtain ⟨b, hb⟩ := List.exists_mem_of_ne_nil (todelOf ageDays fs (uss r))
        (by intro h0; rw [h0] at htd; simp at htd)
      have hbfs : b ∈ fs := by
        have hb2 := hb
        rw [todelOf_eq] at hb2
        exact List.filter_subset' _ hb2
      set fs' := fs.filter (fun x => decide
        (x ∉ (timewarp ageDays fs ths "live" (uss r)).deleted)) with hfs'
      have hsubl : List.Sublist fs' fs := List.filter_sublist _
      have hbnot : b ∉ fs' := by
        intro hbin
        rw [hfs'] at hbin
        have := (List.mem_filter.1 hbin).2
        rw [decide_eq_true_eq, hdel] at this
        exact this hb
      have hlt : fs'.length < fs.length := by
        rcases Nat.lt_or_ge fs'.length fs.length with h | h
        · exact h
        · exfalso
          have heq : fs' = fs :=
            hsubl.eq_of_length (le_antisymm (hsubl.length_le) h)
          rw [heq] at hbnot
          exact hbnot hbfs
      have hnd' : fs'.Nodup := hnd.filter _
      obtain ⟨ih1, ih2⟩ := ih (r + 1) fs' (dfs (r + 1)) hnd'
      constructor
      · simp only [List.length_cons]
        omega
      · intro rec hrec
        rcases List.mem_cons.1 hrec with rfl | hrec
        · show (timewarp ageDays fs ths "live" (uss r)).delCalls = 1
          rw [timewarp_live_eq]
          exact htd
        · exact ih2 rec hrec
    · rw [if_neg hg]
      simp

theorem handler_eq_of_exited {pathExists : String → Bool} {cfg : Config}
    {code : ℕ} {diag : Bool} (ageDays : ℕ → ℤ) (uss : ℕ → ℕ → ℝ)
    (dfs : ℕ → ℤ) (nm : ℕ → String) (asctime : String) (fs : List ℕ)
    (hv : validate_config pathExists cfg = .exited code diag) :
    handler pathExists ageDays uss dfs nm asctime fs cfg =
      ⟨true, [], 0, fs⟩ := by
  unfold handler
  rw [hv]

theorem handler_eq_of_ok {pathExists : String → Bool} {cfg : Config}
    {v m : String} {thr : ℤ} {lg : Option String} (ageDays : ℕ → ℤ)
    (uss : ℕ → ℕ → ℝ) (dfs : ℕ → ℤ) (nm : ℕ → String) (asctime : String)
    (fs : List ℕ)
    (hv : validate_config pathExists cfg = .ok v m thr lg) :
    handler pathExists ageDays uss dfs nm asctime fs cfg =
      if m ≠ "live" then
        ⟨false,
          (dryGo ageDays uss v nm asctime lg.isSome m thr
            ((dfs 0 : ℚ) / (fs.length : ℚ)) (fs.length + 1) 0 fs
            (dfs 0 : ℚ)).1,
          (dryGo ageDays uss v nm asctime lg.isSome m thr
            ((dfs 0 : ℚ) / (fs.length : ℚ)) (fs.length + 1) 0 fs
            (dfs 0 : ℚ)).2.1,
          (dryGo ageDays uss v nm asctime lg.isSome m thr
            ((dfs 0 : ℚ) / (fs.length : ℚ)) (fs.length + 1) 0 fs
            (dfs 0 : ℚ)).2.2.1⟩
      else
        ⟨false, (liveGo ageDays uss dfs thr (fs.length + 1) 0 fs (dfs 0)).1,
          ((liveGo ageDays uss dfs thr (fs.length + 1) 0 fs (dfs 0)).2.1 : ℚ),
          (liveGo ageDays uss dfs thr (fs.length + 1) 0 fs (dfs 0)).2.2⟩ := by
  unfold handler
  rw [hv]

/-- C3 counterexample: a dry run on a volume holding exactly one snapshot,
with free space below the threshold, performs one full planning round —
`n₀ - 1 = 0` rounds are claimed — and that round runs with `nBups = 1 < 2`
snapshots and computes an eviction candidate (evicting the only, hence
latest, snapshot), instead of stopping as `Exhausted` without weights. -/
theorem c3_counterexample :
    ([5] : List ℕ).length - 1 = 0 ∧
    (handler (fun _ => true) (fun _ => 0) (fun _ _ => (1 : ℝ)/2) (fun _ => 0)
      (fun _ => "b") "ts" [5]
      ⟨some "/v", some "safe", some 100, none⟩).trace.map
      (fun rec => (rec.nBups, rec.candidate)) = [(1, some 5)] := by
  refine ⟨rfl, ?_⟩
  have hcand : ∀ us : ℕ → ℝ,
      (timewarp (fun _ => 0) [5] 100 "safe" us).candidate = some 5 := by
    intro us
    have ht : todelOf (fun _ => 0) [5] us = [5] := by
      rw [todelOf_eq]
      have ha : aes (gen_wts (fun _ => 0) [5]) (([5] : List ℕ).length - 1)
          us = [] := by
        show aes _ 0 _ = []
        simp [aes, nlargest]
      rw [ha]
      rfl
    have h2 : timewarp (fun _ => 0) [5] 100 "safe" us =
        ⟨(todelOf (fun _ => 0) [5] us).head?, [], 0⟩ := by
      unfold timewarp
      rw [if_neg (by decide)]
    rw [h2, ht]
    rfl
  rw [handler_eq_of_ok (fun _ => 0) (fun _ _ => (1 : ℝ)/2) (fun _ => 0)
    (fun _ => "b") "ts" [5] (validate_config_ok _ "/v" "safe" 100 none rfl)]
  rw [if_pos (by decide)]
  norm_num [dryGo, hcand]

/-- C3 amended: the reclaim loop performs at most `n₀` eviction rounds
(`n₀` the initial snapshot count; the bound `n₀ - 1` of the claim is not
honoured — see the counterexample) and never runs a planning round with
zero snapshots remaining; it does, however, run a planning round with a
single remaining snapshot whenever free space is still below the
threshold. -/
theorem handler_round_bounds (pathExists : String → Bool) (ageDays : ℕ → ℤ)
    (uss : ℕ → ℕ → ℝ) (dfs : ℕ → ℤ) (nm : ℕ → String) (asctime : String)
    (fs : List ℕ) (cfg : Config) (hnd : fs.Nodup) :
    (handler pathExists ageDays uss dfs nm asctime fs cfg).trace.length ≤
      fs.length ∧
    ∀ rec ∈ (handler pathExists ageDays uss dfs nm asctime fs cfg).trace,
      1 ≤ rec.nBups := by
  cases hv : validate_config pathExists cfg with
  | exited code diag =>
    rw [handler_eq_of_exited ageDays uss dfs nm asctime fs hv]
    simp
  | ok v m thr lg =>
    rw [handler_eq_of_ok ageDays uss dfs nm asctime fs hv]
    by_cases hm : m ≠ "live"
    · rw [if_pos hm]
      exact dryGo_trace_bound ageDays uss v nm asctime lg.isSome m thr
        ((dfs 0 : ℚ) / (fs.length : ℚ)) (fs.length + 1) 0 fs (dfs 0 : ℚ)
    · rw [if_neg hm]
      refine ⟨(liveGo_nodup_fields ageDays uss dfs thr (fs.length + 1) 0 fs
        (dfs 0) hnd).1, ?_⟩
      intro rec hrec
      exact ((liveGo_round_fields ageDays uss dfs thr (fs.length + 1) 0 fs
        (dfs 0)) rec hrec).2.1

theorem c3_amended_witness :
    ([4, 6] : List ℕ).Nodup ∧
    (handler (fun _ => true) (fun _ => 0) (fun _ _ => (1 : ℝ)/2) (fun _ => 0)
      (fun _ => "b") "ts" [4, 6]
      ⟨some "/v", some "safe", some 100, none⟩).trace.length ≤
      ([4, 6] : List ℕ).length ∧
    ∀ rec ∈ (handler (fun _ => true) (fun _ => 0) (fun _ _ => (1 : ℝ)/2)
      (fun _ => 0) (fun _ => "b") "ts" [4, 6]
      ⟨some "/v", some "safe", some 100, none⟩).trace, 1 ≤ rec.nBups := by
  refine ⟨by decide, ?_⟩
  exact handler_round_bounds (fun _ => true) (fun _ => 0)
    (fun _ _ => (1 : ℝ)/2) (fun _ => 0) (fun _ => "b") "ts" [4, 6]
    ⟨some "/v", some "safe", some 100, none⟩ (by decide)

/-- C4 counterexample: an execute-mode (live) run with an audit log
configured performs an eviction round (one deletion-command invocation) yet
appends no audit-log line at all: the `l.info` call sits only in the
dry-run branch of `handler`. -/
theorem c4_counterexample :
    (handler (fun _ => true) (fun _ => 0) (fun _ _ => (1 : ℝ)/2) (fun _ => 0)
      (fun _ => "b") "ts" [5]
      ⟨some "/v", some "live", some 100, some "L"⟩).trace.map
      (fun rec => (rec.delCalls, rec.logLines)) = [(1, [])] := by
  have htw : ∀ us : ℕ → ℝ,
      timewarp (fun _ => 0) [5] 100 "live" us = ⟨none, [5], 1⟩ := by
    intro us
    rw [timewarp_live_eq]
    have ht : todelOf (fun _ => 0) [5] us = [5] := by
      rw [todelOf_eq]
      have ha : aes (gen_wts (fun _ => 0) [5]) (([5] : List ℕ).length - 1)
          us = [] := by
        show aes _ 0 _ = []
        simp [aes, nlargest]
      rw [ha]
      rfl
    rw [ht]
    rfl
  rw [handler_eq_of_ok (fun _ => 0) (fun _ _ => (1 : ℝ)/2) (fun _ => 0)
    (fun _ => "b") "ts" [5]
    (validate_config_ok _ "/v" "live" 100 (some "L") rfl)]
  rw [if_neg (by decide)]
  norm_num [liveGo, htw]

/-- C4 amended: only the simulate (dry-run) branch records eviction
candidates to the audit log — when a log is configured, each dry-run round
appends exactly one line `timestamp TAB joined-path` for its candidate;
execute (live) mode appends nothing to the audit log, ever. -/
theorem handler_logging (pathExists : String → Bool) (ageDays : ℕ → ℤ)
    (uss : ℕ → ℕ → ℝ) (dfs : ℕ → ℤ) (nm : ℕ → String) (asctime : String)
    (fs : List ℕ) (v m : String) (thr : ℤ) (lg : Option String)
    (hex : pathExists v = true) (hm : m ≠ "live") :
    (∀ rec ∈ (handler pathExists ageDays uss dfs nm asctime fs
        ⟨some v, some "live", some thr, lg⟩).trace, rec.logLines = []) ∧
    (lg.isSome = true →
      ∀ rec ∈ (handler pathExists ageDays uss dfs nm asctime fs
        ⟨some v, some m, some thr, lg⟩).trace,
        ∃ c, rec.candidate = some c ∧
          rec.logLines = [logLine asctime (pathJoin v (nm c))]) := by
  constructor
  · rw [handler_eq_of_ok ageDays uss dfs nm asctime fs
      (validate_config_ok pathExists v "live" thr lg hex)]
    rw [if_neg (by simp)]
    intro rec hrec
    exact ((liveGo_round_fields ageDays uss dfs thr (fs.length + 1) 0 fs
      (dfs 0)) rec hrec).1
  · intro hl
    rw [handler_eq_of_ok ageDays uss dfs nm asctime fs
      (validate_config_ok pathExists v m thr lg hex)]
    rw [if_pos hm]
    intro rec hrec
    exact ((dryGo_round_fields ageDays uss v nm asctime lg.isSome m thr
      ((dfs 0 : ℚ) / (fs.length : ℚ)) (fs.length + 1) 0 fs
      (dfs 0 : ℚ)).2 rec hrec).1 hl

theorem c4_amended_witness :
    ((fun _ => true) "/v" = true) ∧ ("safe" ≠ "live") ∧
    (∀ rec ∈ (handler (fun _ => true) (fun _ => 0) (fun _ _ => (1 : ℝ)/2)
        (fun _ => 0) (fun _ => "b") "ts" [5]
        ⟨some "/v", some "live", some 7, some "L"⟩).trace,
      rec.logLines = []) ∧
    ((some "L").isSome = true →
      ∀ rec ∈ (handler (fun _ => true) (fun _ => 0) (fun _ _ => (1 : ℝ)/2)
        (fun _ => 0) (fun _ => "b") "ts" [5]
        ⟨some "/v", some "safe", some 7, some "L"⟩).trace,
        ∃ c, rec.candidate = some c ∧
          rec.logLines = [logLine "ts" (pathJoin "/v" ((fun _ => "b") c))]) :=
  ⟨rfl, by decide, handler_logging (fun _ => true) (fun _ => 0)
    (fun _ _ => (1 : ℝ)/2) (fun _ => 0) (fun _ => "b") "ts" [5] "/v" "safe" 7
    (some "L") rfl (by decide)⟩

/-- C7: in simulate mode the free-space estimate after `r` completed rounds
equals `initial_free + r * (initial_free / n₀)` — the per-snapshot mean
`initial_free / n₀` is fixed from the initial free space and initial
snapshot count before the loop — and every round performs zero deletion
calls. -/
theorem handler_dry_free_estimate (pathExists : String → Bool)
    (ageDays : ℕ → ℤ) (uss : ℕ → ℕ → ℝ) (dfs : ℕ → ℤ) (nm : ℕ → String)
    (asctime : String) (fs : List ℕ) (v m : String) (thr : ℤ)
    (lg : Option String) (hex : pathExists v = true) (hm : m ≠ "live") :
    ∀ (i : ℕ) (rec : Round),
      (handler pathExists ageDays uss dfs nm asctime fs
        ⟨some v, some m, some thr, lg⟩).trace[i]? = some rec →
      rec.freeAfter = (dfs 0 : ℚ) +
        ((i : ℚ) + 1) * ((dfs 0 : ℚ) / (fs.length : ℚ)) ∧
      rec.delCalls = 0 := by
  rw [handler_eq_of_ok ageDays uss dfs nm asctime fs
    (validate_config_ok pathExists v m thr lg hex)]
  rw [if_pos hm]
  intro i rec hrec
  rw [List.getElem?_eq_some_iff] at hrec
  obtain ⟨hlt, heq⟩ := hrec
  obtain ⟨h1, h2⟩ := (dryGo_round_fields ageDays uss v nm asctime lg.isSome m
    thr ((dfs 0 : ℚ) / (fs.length : ℚ)) (fs.length + 1) 0 fs
    (dfs 0 : ℚ)).1 i hlt
  rw [← heq]
  exact ⟨h1, h2⟩

theorem c7_witness :
    ((fun _ => true) "/v" = true) ∧ ("safe" ≠ "live") ∧
    ∀ (i : ℕ) (rec : Round),
      (handler (fun _ => true) (fun _ => 0) (fun _ _ => (1 : ℝ)/2)
        (fun _ => 7) (fun _ => "b") "ts" [4, 6]
        ⟨some "/v", some "safe", some 100, none⟩).trace[i]? = some rec →
      rec.freeAfter = ((7 : ℤ) : ℚ) +
        ((i : ℚ) + 1) * (((7 : ℤ) : ℚ) / (([4, 6] : List ℕ).length : ℚ)) ∧
      rec.delCalls = 0 :=
  ⟨rfl, by decide, handler_dry_free_estimate (fun _ => true) (fun _ => 0)
    (fun _ _ => (1 : ℝ)/2) (fun _ => 7) (fun _ => "b") "ts" [4, 6] "/v" "safe"
    100 none rfl (by decide)⟩

end Timewarp
